import Mathlib

/-!
Verification of the `virtual-clock` library (src/virtual-clock.js).

The development shallowly embeds the `VirtualClock` class: JavaScript
numbers are modelled by rationals (`ℚ`), the values `-Infinity` and
`Infinity` by the extended type `ERat`, and `NaN` together with
non-terminating loops by `Option` (`none`).  Callbacks are opaque and
identified by natural numbers; `setTimeout` handles are modelled by an
explicit list of armed timeouts with fresh identifiers.
-/

namespace VClock

/-- Extended rationals modelling the JavaScript number values `-Infinity`,
finite numbers and `Infinity`.  `NaN` is modelled by `Option` at use sites. -/
inductive ERat where
  | negInf : ERat
  | fin : ℚ → ERat
  | posInf : ERat
deriving DecidableEq, Repr

/-- JavaScript `<=` on extended values (no `NaN` involved). -/
def ERat.leb : ERat → ERat → Bool
  | .negInf, _ => true
  | .fin _, .negInf => false
  | .fin a, .fin b => a ≤ b
  | .fin _, .posInf => true
  | .posInf, .posInf => true
  | .posInf, .fin _ => false
  | .posInf, .negInf => false

/-- JavaScript `<` on extended values (no `NaN` involved). -/
def ERat.ltb (a b : ERat) : Bool := !(ERat.leb b a)

/-- JavaScript `Math.max` on two extended values. -/
def ERat.maxE (a b : ERat) : ERat := if a.leb b then b else a

/-- JavaScript `Math.min` on two extended values. -/
def ERat.minE (a b : ERat) : ERat := if a.leb b then a else b

/-- Models `Math.min(Math.max(mn, v), mx)`, the clamping pattern used throughout
the source. -/
def jsClampE (mn v mx : ERat) : ERat := ERat.minE (ERat.maxE mn v) mx

/-- Truncation toward zero, which is how JavaScript's `%` divides. -/
def truncQ (q : ℚ) : ℤ := if 0 ≤ q then ⌊q⌋ else ⌈q⌉

/-- JavaScript's remainder `x % M` for a nonzero finite divisor `M`. -/
def jsMod (x M : ℚ) : ℚ := x - M * truncQ (x / M)

/-- The `do { currentTime += (maximum - minimum) } while (currentTime < minimum)`
loop of the `time` getter.  It is entered when `ct < m`; it terminates
exactly when the span is positive, so the positivity proof is an argument. -/
def foldUp (ct m span : ℚ) (h : 0 < span) : ℚ :=
  if ct + span < m then foldUp (ct + span) m span h else ct + span
termination_by (⌈(m - ct) / span⌉).toNat
decreasing_by
  have h1 : (0 : ℚ) < (m - (ct + span)) / span := by
    apply div_pos _ h
    linarith
  have h2 : (m - (ct + span)) / span = (m - ct) / span - 1 := by
    field_simp
    ring
  have h3 : (0 : ℤ) < ⌈(m - (ct + span)) / span⌉ := Int.lt_ceil.mpr (by push_cast; linarith)
  have h4 : ⌈(m - (ct + span)) / span⌉ = ⌈(m - ct) / span⌉ - 1 := by
    rw [h2]
    exact Int.ceil_sub_one ((m - ct) / span)
  omega

/-- The `while (currentTime >= maximum) { currentTime -= (maximum - minimum) }`
loop of the `time` getter, for a positive span. -/
def foldDown (ct M span : ℚ) (h : 0 < span) : ℚ :=
  if M ≤ ct then foldDown (ct - span) M span h else ct
termination_by (⌊(ct - M) / span⌋ + 1).toNat
decreasing_by
  have h1 : (0 : ℚ) ≤ (ct - M) / span := by
    apply div_nonneg _ (le_of_lt h)
    linarith
  have h2 : (ct - span - M) / span = (ct - M) / span - 1 := by
    field_simp
    ring
  have h3 : (0 : ℤ) ≤ ⌊(ct - M) / span⌋ := Int.floor_nonneg.mpr h1
  have h4 : ⌊(ct - span - M) / span⌋ = ⌊(ct - M) / span⌋ - 1 := by
    rw [h2]
    exact Int.floor_sub_one ((ct - M) / span)
  omega

/-- The looping (bound-folding) part of the `time` getter, entered when
`loop` is set and both bounds are the finite values `m` and `M`.  `none`
models the `NaN` produced by `% 0` and the non-termination of the folding
loops when the span `M - m` is not positive. -/
def timeFold (ct m M : ℚ) : Option ℚ :=
  if ct < m then
    if h : 0 < M - m then some (foldUp ct m (M - m) h) else none
  else if m = 0 then
    if M = 0 then none else some (jsMod ct M)
  else
    if h : 0 < M - m then some (foldDown ct M (M - m) h)
    else if ct < M then some ct else none

/-- Lines 293-314 of the `time` getter: fold the computed time into the
bounds when looping with finite bounds, otherwise clamp it.  (The inner
wildcard arm is reachable only when `minimum ≤ maximum` is violated, which
no constructed clock allows; there the JavaScript folding loops fail to
terminate, hence `none`.) -/
def applyBounds (ct : ℚ) (mn mx : ERat) (loop : Bool) : Option ERat :=
  if loop = true ∧ ERat.ltb .negInf mn = true ∧ ERat.ltb mx .posInf = true then
    match mn, mx with
    | .fin m, .fin M => (timeFold ct m M).map ERat.fin
    | _, _ => none
  else
    some (jsClampE mn (.fin ct) mx)

/-- The body of the `time` getter (`get time`), as a function of the stored
time-model fields and the wall-clock sample `now`.  `none` models `NaN`
results and non-termination. -/
def currentTimeCore (prev pnow rate : ℚ) (running : Bool) (mn mx : ERat)
    (loop : Bool) (now : ℚ) : Option ERat :=
  applyBounds (prev + (if running then rate * (now - pnow) else 0)) mn mx loop

/-- Kind of a pending `setTimeout`: the main firing timeout (line 209) or
the minimal-delay retry timeout (line 180). -/
inductive TKind where
  | fireK : TKind
  | retryK : TKind
deriving DecidableEq, Repr

/-- A pending `setTimeout`, identified by the handle `id`, armed with the
given millisecond `delay` on behalf of the time listener keyed `key`. -/
structure Timeout where
  id : ℕ
  delay : ℤ
  key : ℕ
  kind : TKind
deriving DecidableEq, Repr

/-- One entry of `_timeListeners`: the key of the JavaScript `Map` is the
identity of the `[time, callback]` array (modelled by a fresh natural
number); the stored value is the `[timeoutId, lastCalled, once]` triple,
where `lastCalled = none` models `NaN`. -/
structure TimeListener where
  time : ℚ
  callback : ℕ
  timeoutId : ℕ
  lastCalled : Option ℚ
  once : Bool
deriving DecidableEq, Repr

/-- The state of a `VirtualClock` instance.  `activeTimeouts` are the
currently armed (not yet fired, not cleared) `setTimeout` handles;
`nextTimeoutId` and `nextListenerId` produce fresh identities. -/
structure Clock where
  previousTime : ℚ
  previousNow : ℚ
  rate : ℚ
  running : Bool
  minimum : ERat
  maximum : ERat
  loop : Bool
  eventListeners : List (String × List ℕ)
  timeListeners : List (ℕ × TimeListener)
  activeTimeouts : List Timeout
  nextTimeoutId : ℕ
  nextListenerId : ℕ
deriving DecidableEq, Repr

/-- The constructor: a stopped clock at time `0`, rate `1`, unbounded,
not looping, with no listeners. -/
def Clock.init (now0 : ℚ) : Clock where
  previousTime := 0
  previousNow := now0
  rate := 1
  running := false
  minimum := .negInf
  maximum := .posInf
  loop := false
  eventListeners := []
  timeListeners := []
  activeTimeouts := []
  nextTimeoutId := 1
  nextListenerId := 1

/-- The `time` getter on a clock state, sampled at wall-clock `now`. -/
def timeGet (c : Clock) (now : ℚ) : Option ERat :=
  currentTimeCore c.previousTime c.previousNow c.rate c.running c.minimum
    c.maximum c.loop now

/-- The `time` getter restricted to finite results, as used by the code
paths that store the result back into `_previousTime`. -/
def timeGetQ (c : Clock) (now : ℚ) : Option ℚ :=
  match timeGet c now with
  | some (.fin q) => some q
  | _ => none

/-- Models `this._timeListeners.get(listener)`. -/
def lookupTL (c : Clock) (k : ℕ) : Option TimeListener :=
  (c.timeListeners.find? (fun p => p.1 == k)).map Prod.snd

/-- Models `this._timeListeners.set(listener, data)` for an already present key
(JavaScript `Map.set` updates in place, preserving insertion order). -/
def setTL (c : Clock) (k : ℕ) (L : TimeListener) : Clock :=
  { c with timeListeners := c.timeListeners.map (fun p => if p.1 == k then (k, L) else p) }

/-- Models `clearTimeout(tid)`: disarm the pending timeout with that handle, if
any (`clearTimeout(0)` in the source is a no-op, as `0` is never a real
handle). -/
def clearTimeoutF (c : Clock) (tid : ℕ) : Clock :=
  { c with activeTimeouts := c.activeTimeouts.filter (fun t => t.id != tid) }

/-- Models `setTimeout(cb, delay)`: arm a fresh timeout and return its handle. -/
def setTimeoutF (c : Clock) (delay : ℤ) (key : ℕ) (kind : TKind) : Clock × ℕ :=
  ({ c with
      activeTimeouts := c.activeTimeouts ++ [⟨c.nextTimeoutId, delay, key, kind⟩],
      nextTimeoutId := c.nextTimeoutId + 1 },
   c.nextTimeoutId)

/-- Lines 202-230 of `_recalculateTimeListener`: scale the virtual
distance `u` by `1 / Math.abs(rate)`, `Math.ceil` it, arm the firing
timeout, and store `[timeoutId, NaN, once]` for the entry. -/
def armFire (c : Clock) (k : ℕ) (L : TimeListener) (u : ℚ) : Clock :=
  let d : ℤ := ⌈u * (1 / |c.rate|)⌉
  let p := setTimeoutF c d k .fireK
  setTL p.1 k { L with timeoutId := p.2, lastCalled := none }

/-- Models `_recalculateTimeListener(listener)`.  `none` models the getter `this.time`
not returning (`NaN`-poisoned comparison is impossible in the source since a
`NaN` current time never reaches this code with finite bounds; the only
`none` sources are the degenerate folding states). -/
def recalcOne (c : Clock) (k : ℕ) (now : ℚ) : Option Clock :=
  match lookupTL c k with
  | none => some c
  | some L =>
    let c1 := clearTimeoutF c L.timeoutId
    if c1.running = true ∧ c1.rate ≠ 0 ∧ ERat.leb c1.minimum (.fin L.time) = true
        ∧ ERat.leb (.fin L.time) c1.maximum = true then
      match timeGetQ c1 now with
      | none => none
      | some q =>
        if L.lastCalled = some q then
          if c1.loop = true ∨ (ERat.fin q ≠ c1.minimum ∧ ERat.fin q ≠ c1.maximum) then
            let p := setTimeoutF c1 1 k .retryK
            some (setTL p.1 k { L with timeoutId := p.2 })
          else
            some c1
        else
          let u : ℚ := if c1.rate > 0 then L.time - q else q - L.time
          if 0 ≤ u then
            some (armFire c1 k L u)
          else
            match c1.minimum, c1.maximum with
            | .fin m, .fin M => if c1.loop then some (armFire c1 k L (u + (M - m))) else some c1
            | _, _ => some c1
    else
      some c1

/-- Models `_recalculateTimeListeners()`: recalculate every registered listener,
in registration order. -/
def recalcAll (c : Clock) (now : ℚ) : Option Clock :=
  (c.timeListeners.map Prod.fst).foldlM (fun acc k => recalcOne acc k now) c

/-- The body of the firing `setTimeout` callback (lines 210-229): re-check
registration, record the firing time, invoke the callback (opaque; the
returned `Bool` tells whether it was invoked), then self-destruct or
recalculate. -/
def fireTimerBody (c : Clock) (k : ℕ) (now : ℚ) : Option (Clock × Bool) :=
  match lookupTL c k with
  | none => some (c, false)
  | some L =>
    match timeGetQ c now with
    | none => none
    | some q =>
      let c1 := setTL c k { L with timeoutId := 0, lastCalled := some q }
      if L.once then
        some ({ c1 with timeListeners := c1.timeListeners.filter (fun p => p.1 != k) }, true)
      else
        (recalcOne c1 k now).map (fun c2 => (c2, true))

/-- Shared body of `onceAt` / `alwaysAt`: create the entry with data
`[0, NaN, once]` and recalculate it. -/
def registerAt (c : Clock) (t : ℚ) (cb : ℕ) (once : Bool) (now : ℚ) : Option Clock :=
  let k := c.nextListenerId
  let c1 := { c with
    timeListeners := c.timeListeners ++ [(k, ⟨t, cb, 0, none, once⟩)],
    nextListenerId := k + 1 }
  recalcOne c1 k now

/-- Models `onceAt(time, callback)`. -/
def onceAt (c : Clock) (t : ℚ) (cb : ℕ) (now : ℚ) : Option Clock :=
  registerAt c t cb true now

/-- Models `alwaysAt(time, callback)`. -/
def alwaysAt (c : Clock) (t : ℚ) (cb : ℕ) (now : ℚ) : Option Clock :=
  registerAt c t cb false now

/-- Models `removeAt(time, callback)`: delete every entry whose time and callback
both match.  (Note: the source does not call `clearTimeout` here.) -/
def removeAt (c : Clock) (t : ℚ) (cb : ℕ) : Clock :=
  { c with timeListeners :=
      c.timeListeners.filter (fun p => !(p.2.time == t && p.2.callback == cb)) }

/-- Models `on(event, callback)`: append to the event's listener list, creating
the list if absent. -/
def onEv (c : Clock) (ev : String) (cb : ℕ) : Clock :=
  if c.eventListeners.any (fun p => p.1 == ev) then
    { c with eventListeners :=
        c.eventListeners.map (fun p => if p.1 == ev then (p.1, p.2 ++ [cb]) else p) }
  else
    { c with eventListeners := c.eventListeners ++ [(ev, [cb])] }

/-- Models `off(event, callback)`: remove the first matching listener; `none`
models the `throw new Error('Event listener not found')` path, which is
reached before any mutation. -/
def offEv (c : Clock) (ev : String) (cb : ℕ) : Option Clock :=
  match c.eventListeners.find? (fun p => p.1 == ev) with
  | some p =>
    if cb ∈ p.2 then
      some { c with eventListeners :=
        c.eventListeners.map (fun q => if q.1 == ev then (q.1, q.2.erase cb) else q) }
    else
      none
  | none => none

/-- Trace actions of a mutating operation: a state update, a call to
`_recalculateTimeListeners`, or a `trigger(event)`. -/
inductive Action where
  | update : Action
  | recalc : Action
  | emit : String → Action
deriving DecidableEq, Repr

/-- Result of a mutating operation: normal return or a thrown validation
error (carrying the state as it is left at the throw). -/
inductive StepResult where
  | ok : Clock → List Action → StepResult
  | thrown : String → Clock → List Action → StepResult
deriving DecidableEq, Repr

/-- Models `start()`. -/
def start (c : Clock) (now : ℚ) : Option (Clock × List Action) :=
  if c.running then
    some (c, [.emit "setrunning"])
  else
    (recalcAll { c with previousNow := now, running := true } now).map
      (fun c2 => (c2, [.update, .recalc, .emit "start", .emit "setrunning"]))

/-- Models `stop()`. -/
def stop (c : Clock) (now : ℚ) : Option (Clock × List Action) :=
  if c.running then
    match timeGetQ c now with
    | none => none
    | some q =>
      (recalcAll { c with previousTime := q, running := false } now).map
        (fun c2 => (c2, [.update, .recalc, .emit "stop", .emit "setrunning"]))
  else
    some (c, [.emit "setrunning"])

/-- Models `set time(time)`. -/
def setTime (c : Clock) (t : ℚ) (now : ℚ) : Option (Clock × List Action) :=
  match jsClampE c.minimum (.fin t) c.maximum with
  | .fin q =>
    (recalcAll { c with previousTime := q, previousNow := now } now).map
      (fun c2 => (c2, [.update, .recalc, .emit "settime"]))
  | _ => none

/-- Models `set rate(rate)`. -/
def setRate (c : Clock) (r : ℚ) (now : ℚ) : Option (Clock × List Action) :=
  if c.running then
    match timeGetQ c now with
    | none => none
    | some q =>
      (recalcAll { c with previousTime := q, previousNow := now, rate := r } now).map
        (fun c2 => (c2, [.update, .update, .recalc, .emit "setrate"]))
  else
    (recalcAll { c with rate := r } now).map
      (fun c2 => (c2, [.update, .recalc, .emit "setrate"]))

/-- Models `set minimum(minimum)`.  The source first reads `this.time` under the
old bounds, then validates, then mutates. -/
def setMinimum (c : Clock) (m : ERat) (now : ℚ) : Option StepResult :=
  match timeGet c now with
  | none => none
  | some prevD =>
    if ERat.ltb c.maximum m = true ∨ m = .posInf then
      some (.thrown "Cannot set minimum above maximum" c [])
    else
      match jsClampE m prevD c.maximum with
      | .fin q =>
        (recalcAll { c with minimum := m, previousTime := q, previousNow := now } now).map
          (fun c2 => .ok c2 [.update, .update, .recalc, .emit "setminimum"])
      | _ => none

/-- Models `set maximum(maximum)`. -/
def setMaximum (c : Clock) (mx : ERat) (now : ℚ) : Option StepResult :=
  match timeGet c now with
  | none => none
  | some prevD =>
    if ERat.ltb mx c.minimum = true ∨ mx = .negInf then
      some (.thrown "Cannot set maximum below minimum" c [])
    else
      match jsClampE c.minimum prevD mx with
      | .fin q =>
        (recalcAll { c with maximum := mx, previousTime := q, previousNow := now } now).map
          (fun c2 => .ok c2 [.update, .update, .recalc, .emit "setmaximum"])
      | _ => none

/-- Models `set loop(loop)`: recalibrate (reading `this.time` under the old loop
flag), then set the flag. -/
def setLoop (c : Clock) (l : Bool) (now : ℚ) : Option (Clock × List Action) :=
  match timeGetQ c now with
  | none => none
  | some q =>
    (recalcAll { c with previousTime := q, previousNow := now, loop := l } now).map
      (fun c2 => (c2, [.update, .update, .recalc, .emit "setloop"]))

/-- The seven mutating operations of the time model. -/
inductive Op where
  | opStart : Op
  | opStop : Op
  | opSetTime : ℚ → Op
  | opSetRate : ℚ → Op
  | opSetMinimum : ERat → Op
  | opSetMaximum : ERat → Op
  | opSetLoop : Bool → Op
deriving DecidableEq, Repr

/-- Run one mutating operation. -/
def runOp (op : Op) (c : Clock) (now : ℚ) : Option StepResult :=
  match op with
  | .opStart => (start c now).map (fun p => .ok p.1 p.2)
  | .opStop => (stop c now).map (fun p => .ok p.1 p.2)
  | .opSetTime t => (setTime c t now).map (fun p => .ok p.1 p.2)
  | .opSetRate r => (setRate c r now).map (fun p => .ok p.1 p.2)
  | .opSetMinimum m => setMinimum c m now
  | .opSetMaximum m => setMaximum c m now
  | .opSetLoop l => (setLoop c l now).map (fun p => .ok p.1 p.2)

/-! ### Order lemmas for `ERat` -/

theorem ERat.leb_refl (a : ERat) : ERat.leb a a = true := by
  cases a <;> simp [ERat.leb]

theorem ERat.leb_trans {a b c : ERat} (h1 : ERat.leb a b = true)
    (h2 : ERat.leb b c = true) : ERat.leb a c = true := by
  cases a <;> cases b <;> cases c <;> simp_all [ERat.leb] <;> linarith

theorem ERat.leb_of_not_leb {a b : ERat} (h : ERat.leb a b = false) :
    ERat.leb b a = true := by
  cases a <;> cases b <;> simp_all [ERat.leb] <;> linarith

theorem ERat.ltb_eq_false_iff {a b : ERat} : ERat.ltb a b = false ↔ ERat.leb b a = true := by
  simp [ERat.ltb]

/-! ### Bounds for the folding loops and the JavaScript remainder -/

theorem foldUp_ge (ct m span : ℚ) (h : 0 < span) : m ≤ foldUp ct m span h := by
  induction ct, m, span, h using foldUp.induct with
  | case1 ct m span h hlt ih =>
    rw [foldUp, if_pos hlt]
    exact ih
  | case2 ct m span h hlt =>
    rw [foldUp, if_neg hlt]
    linarith [not_lt.mp hlt]

theorem foldUp_lt (ct m span : ℚ) (h : 0 < span) (hct : ct < m) :
    foldUp ct m span h < m + span := by
  induction ct, m, span, h using foldUp.induct with
  | case1 ct m span h hlt ih =>
    rw [foldUp, if_pos hlt]
    exact ih hlt
  | case2 ct m span h hlt =>
    rw [foldUp, if_neg hlt]
    linarith

theorem foldDown_lt (ct M span : ℚ) (h : 0 < span) : foldDown ct M span h < M := by
  induction ct, M, span, h using foldDown.induct with
  | case1 ct M span h hge ih =>
    rw [foldDown, if_pos hge]
    exact ih
  | case2 ct M span h hge =>
    rw [foldDown, if_neg hge]
    exact not_le.mp hge

theorem foldDown_ge (ct M span : ℚ) (h : 0 < span) (hct : M - span ≤ ct) :
    M - span ≤ foldDown ct M span h := by
  induction ct, M, span, h using foldDown.induct with
  | case1 ct M span h hge ih =>
    rw [foldDown, if_pos hge]
    exact ih (by linarith)
  | case2 ct M span h hge =>
    rw [foldDown, if_neg hge]
    exact hct

theorem jsMod_nonneg (x M : ℚ) (hx : 0 ≤ x) (hM : 0 < M) : 0 ≤ jsMod x M := by
  unfold jsMod truncQ
  rw [if_pos (div_nonneg hx hM.le)]
  have h1 : (⌊x / M⌋ : ℚ) ≤ x / M := Int.floor_le _
  have h2 : M * (⌊x / M⌋ : ℚ) ≤ M * (x / M) :=
    mul_le_mul_of_nonneg_left h1 hM.le
  rw [mul_div_cancel₀ x hM.ne'] at h2
  linarith

theorem jsMod_lt (x M : ℚ) (hx : 0 ≤ x) (hM : 0 < M) : jsMod x M < M := by
  unfold jsMod truncQ
  rw [if_pos (div_nonneg hx hM.le)]
  have h1 : x / M < ⌊x / M⌋ + 1 := Int.lt_floor_add_one _
  have h2 : M * (x / M) < M * ((⌊x / M⌋ : ℚ) + 1) :=
    (mul_lt_mul_left hM).mpr h1
  rw [mul_div_cancel₀ x hM.ne'] at h2
  linarith

theorem jsMod_eq_self (x M : ℚ) (hx : 0 ≤ x) (hxM : x < M) : jsMod x M = x := by
  have hM : 0 < M := lt_of_le_of_lt hx hxM
  unfold jsMod truncQ
  rw [if_pos (div_nonneg hx hM.le)]
  have h0 : ⌊x / M⌋ = 0 := by
    rw [Int.floor_eq_zero_iff]
    constructor
    · exact div_nonneg hx hM.le
    · rw [div_lt_one hM]
      exact hxM
  rw [h0]
  push_cast
  ring

/-! ### The bound-folding function -/

theorem timeFold_mem (ct m M q : ℚ) (hmM : m ≤ M) (h : timeFold ct m M = some q) :
    m ≤ q ∧ q < M := by
  unfold timeFold at h
  split_ifs at h with h1 h2 h3 h4 h5 h6
  · obtain rfl : foldUp ct m (M - m) h2 = q := by simpa using h
    refine ⟨foldUp_ge .., ?_⟩
    have := foldUp_lt ct m (M - m) h2 h1
    linarith
  · obtain rfl : jsMod ct M = q := by simpa using h
    subst h3
    have hM : 0 < M := lt_of_le_of_ne hmM (by simpa [eq_comm] using h4)
    exact ⟨jsMod_nonneg ct M (not_lt.mp h1) hM, jsMod_lt ct M (not_lt.mp h1) hM⟩
  · obtain rfl : foldDown ct M (M - m) h5 = q := by simpa using h
    constructor
    · have := foldDown_ge ct M (M - m) h5 (by linarith [not_lt.mp h1])
      linarith
    · exact foldDown_lt ..
  · obtain rfl : ct = q := by simpa using h
    exact ⟨not_lt.mp h1, h6⟩
  all_goals exact absurd h (by simp)

theorem timeFold_isSome (ct m M : ℚ) (hmM : m < M) : (timeFold ct m M).isSome = true := by
  unfold timeFold
  split_ifs with h1 h2 h3 h4 h5 h6
  · rfl
  · exact (h2 (by linarith)).elim
  · exfalso
    rw [h3, h4] at hmM
    exact lt_irrefl 0 hmM
  · rfl
  · rfl
  · rfl
  · exact (h5 (by linarith)).elim

theorem timeFold_id (d m M : ℚ) (h1 : m ≤ d) (h2 : d < M) : timeFold d m M = some d := by
  unfold timeFold
  rw [if_neg (not_lt.mpr h1)]
  by_cases h3 : m = 0
  · rw [if_pos h3]
    subst h3
    rw [if_neg (by linarith : ¬M = 0)]
    rw [jsMod_eq_self d M h1 h2]
  · rw [if_neg h3]
    rw [dif_pos (by linarith : 0 < M - m)]
    congr 1
    rw [foldDown, if_neg (not_le.mpr h2)]

/-! ### Clamping -/

theorem jsClampE_mem (mn v mx : ERat) (h : ERat.leb mn mx = true) :
    ERat.leb mn (jsClampE mn v mx) = true ∧ ERat.leb (jsClampE mn v mx) mx = true := by
  unfold jsClampE ERat.maxE ERat.minE
  split_ifs with h1 h2 h3 <;>
    simp_all [ERat.leb_refl, ERat.leb_of_not_leb]

theorem jsClampE_id (mn v mx : ERat) (h1 : ERat.leb mn v = true)
    (h2 : ERat.leb v mx = true) : jsClampE mn v mx = v := by
  unfold jsClampE ERat.maxE ERat.minE
  rw [if_pos h1, if_pos h2]

theorem jsClampE_fin (mn mx : ERat) (q : ℚ) (hmn : mn ≠ .posInf) (hmx : mx ≠ .negInf) :
    ∃ r, jsClampE mn (.fin q) mx = .fin r := by
  have hw : ∃ w, ERat.maxE mn (.fin q) = .fin w := by
    cases mn with
    | negInf => exact ⟨q, by simp [ERat.maxE, ERat.leb]⟩
    | posInf => exact absurd rfl hmn
    | fin a =>
      unfold ERat.maxE
      by_cases h : ERat.leb (.fin a) (.fin q) = true
      · exact ⟨q, by rw [if_pos h]⟩
      · exact ⟨a, by rw [if_neg h]⟩
  obtain ⟨w, hw⟩ := hw
  unfold jsClampE
  rw [hw]
  cases mx with
  | negInf => exact absurd rfl hmx
  | posInf => exact ⟨w, by simp [ERat.minE, ERat.leb]⟩
  | fin b =>
    unfold ERat.minE
    by_cases h : ERat.leb (.fin w) (.fin b) = true
    · exact ⟨w, by rw [if_pos h]⟩
    · exact ⟨b, by rw [if_neg h]⟩

/-! ### Properties of the `time` getter -/

theorem applyBounds_mem {ct : ℚ} {mn mx v : ERat} {loop : Bool}
    (hle : ERat.leb mn mx = true) (h : applyBounds ct mn mx loop = some v) :
    ERat.leb mn v = true ∧ ERat.leb v mx = true := by
  unfold applyBounds at h
  split_ifs at h with hg
  · obtain ⟨hl, h1, h2⟩ := hg
    cases mn with
    | negInf => simp [ERat.ltb, ERat.leb] at h1
    | posInf => cases mx <;> simp_all [ERat.ltb, ERat.leb]
    | fin m =>
      cases mx with
      | negInf => simp [ERat.leb] at hle
      | posInf => simp [ERat.ltb, ERat.leb] at h2
      | fin M =>
        obtain ⟨q, hq, rfl⟩ := Option.map_eq_some'.mp h
        have hb := timeFold_mem _ _ _ _ (by simpa [ERat.leb] using hle) hq
        simp only [ERat.leb]
        exact ⟨by simpa using hb.1, by simpa using hb.2.le⟩
  · obtain rfl : jsClampE mn (.fin ct) mx = v := by simpa using h
    exact jsClampE_mem _ _ _ hle

theorem currentTimeCore_mem {prev pnow rate now : ℚ} {running loop : Bool}
    {mn mx v : ERat} (hle : ERat.leb mn mx = true)
    (h : currentTimeCore prev pnow rate running mn mx loop now = some v) :
    ERat.leb mn v = true ∧ ERat.leb v mx = true :=
  applyBounds_mem hle h

theorem applyBounds_loop_strict {ct : ℚ} {v : ERat} {m M : ℚ} (hmM : m ≤ M)
    (h : applyBounds ct (.fin m) (.fin M) true = some v) :
    ∃ q, v = .fin q ∧ m ≤ q ∧ q < M := by
  unfold applyBounds at h
  rw [if_pos (by simp [ERat.ltb, ERat.leb])] at h
  obtain ⟨q, hq, rfl⟩ := Option.map_eq_some'.mp h
  exact ⟨q, rfl, timeFold_mem _ _ _ _ hmM hq⟩

theorem applyBounds_isSome {ct : ℚ} {mn mx : ERat} {loop : Bool}
    (hle : ERat.leb mn mx = true)
    (hstrict : loop = true → ∀ m M, mn = .fin m → mx = .fin M → m < M) :
    (applyBounds ct mn mx loop).isSome = true := by
  unfold applyBounds
  split_ifs with hg
  · obtain ⟨hl, h1, h2⟩ := hg
    cases mn with
    | negInf => simp [ERat.ltb, ERat.leb] at h1
    | posInf => cases mx <;> simp_all [ERat.ltb, ERat.leb]
    | fin m =>
      cases mx with
      | negInf => simp [ERat.leb] at hle
      | posInf => simp [ERat.ltb, ERat.leb] at h2
      | fin M =>
        show (Option.map ERat.fin (timeFold ct m M)).isSome = true
        rcases Option.isSome_iff_exists.mp (timeFold_isSome ct m M (hstrict hl m M rfl rfl)) with ⟨q, hq⟩
        rw [hq]
        rfl
  · rfl

theorem applyBounds_fin {ct : ℚ} {mn mx v : ERat} {loop : Bool}
    (hmn : mn ≠ .posInf) (hmx : mx ≠ .negInf)
    (h : applyBounds ct mn mx loop = some v) : ∃ q, v = .fin q := by
  unfold applyBounds at h
  split_ifs at h with hg
  · obtain ⟨hl, h1, h2⟩ := hg
    cases mn with
    | negInf => simp [ERat.ltb, ERat.leb] at h1
    | posInf => exact absurd rfl hmn
    | fin m =>
      cases mx with
      | negInf => exact absurd rfl hmx
      | posInf => simp [ERat.ltb, ERat.leb] at h2
      | fin M =>
        obtain ⟨q, _, rfl⟩ := Option.map_eq_some'.mp h
        exact ⟨q, rfl⟩
  · obtain rfl : jsClampE mn (.fin ct) mx = v := by simpa using h
    exact jsClampE_fin mn mx _ hmn hmx

/-! ### The time-model fields and their preservation by the scheduler -/

/-- The seven fields that determine the value of the `time` getter. -/
def timeModel (c : Clock) : ℚ × ℚ × ℚ × Bool × ERat × ERat × Bool :=
  (c.previousTime, c.previousNow, c.rate, c.running, c.minimum, c.maximum, c.loop)

theorem timeGet_congr {c1 c2 : Clock} (h : timeModel c1 = timeModel c2) (now : ℚ) :
    timeGet c1 now = timeGet c2 now := by
  unfold timeGet
  simp only [timeModel, Prod.mk.injEq] at h
  obtain ⟨e1, e2, e3, e4, e5, e6, e7⟩ := h
  rw [e1, e2, e3, e4, e5, e6, e7]

theorem timeGetQ_congr {c1 c2 : Clock} (h : timeModel c1 = timeModel c2) (now : ℚ) :
    timeGetQ c1 now = timeGetQ c2 now := by
  unfold timeGetQ
  rw [timeGet_congr h]

theorem recalcOne_model {c c' : Clock} {k : ℕ} {now : ℚ}
    (h : recalcOne c k now = some c') : timeModel c' = timeModel c := by
  rw [recalcOne.eq_def] at h
  dsimp only at h
  repeat' split at h
  all_goals first
    | (exfalso; exact Option.noConfusion h)
    | (injection h with h
       subst h
       simp [timeModel, armFire, setTL, setTimeoutF, clearTimeoutF])

theorem foldlM_recalc_model (ks : List ℕ) (c c' : Clock) (now : ℚ)
    (h : List.foldlM (fun a k => recalcOne a k now) c ks = some c') :
    timeModel c' = timeModel c := by
  induction ks generalizing c with
  | nil =>
    obtain rfl : c = c' := by simpa using h
    rfl
  | cons k ks ih =>
    rw [List.foldlM_cons] at h
    cases hr : recalcOne c k now with
    | none =>
      rw [hr] at h
      exact absurd h (by simp)
    | some a =>
      rw [hr] at h
      simp only [Option.bind_eq_bind, Option.some_bind] at h
      exact (ih a h).trans (recalcOne_model hr)

theorem recalcAll_model {c c' : Clock} {now : ℚ} (h : recalcAll c now = some c') :
    timeModel c' = timeModel c :=
  foldlM_recalc_model _ _ _ _ (by simpa [recalcAll] using h)

/-! ### `timeGetQ` facts -/

theorem timeGetQ_spec {c : Clock} {now q : ℚ} (h : timeGetQ c now = some q) :
    timeGet c now = some (.fin q) := by
  unfold timeGetQ at h
  rcases hg : timeGet c now with _ | v
  · rw [hg] at h
    exact absurd h (by simp)
  · rw [hg] at h
    cases v with
    | fin r =>
      obtain rfl : r = q := by simpa using h
      rfl
    | negInf => exact absurd h (by simp)
    | posInf => exact absurd h (by simp)

theorem timeGetQ_of_timeGet {c : Clock} {now q : ℚ}
    (h : timeGet c now = some (.fin q)) : timeGetQ c now = some q := by
  unfold timeGetQ
  rw [h]

/-- The validity invariant: the stored reference time lies between the
bounds (claim C10's property). -/
def Inv (c : Clock) : Bool :=
  ERat.leb c.minimum (.fin c.previousTime) && ERat.leb (.fin c.previousTime) c.maximum

theorem Inv_le {c : Clock} (h : Inv c = true) : ERat.leb c.minimum c.maximum = true := by
  rw [Inv, Bool.and_eq_true] at h
  exact ERat.leb_trans h.1 h.2

theorem Inv_min_ne {c : Clock} (h : Inv c = true) : c.minimum ≠ .posInf := by
  rw [Inv, Bool.and_eq_true] at h
  intro he
  rw [he] at h
  simpa [ERat.leb] using h.1

theorem Inv_max_ne {c : Clock} (h : Inv c = true) : c.maximum ≠ .negInf := by
  rw [Inv, Bool.and_eq_true] at h
  intro he
  rw [he] at h
  simpa [ERat.leb] using h.2

theorem timeGetQ_mem {c : Clock} {now q : ℚ}
    (hle : ERat.leb c.minimum c.maximum = true) (h : timeGetQ c now = some q) :
    ERat.leb c.minimum (.fin q) = true ∧ ERat.leb (.fin q) c.maximum = true :=
  currentTimeCore_mem hle (timeGetQ_spec h)

theorem timeGet_isSome {c : Clock} {now : ℚ}
    (hle : ERat.leb c.minimum c.maximum = true)
    (hstrict : c.loop = true → ∀ m M, c.minimum = .fin m → c.maximum = .fin M → m < M) :
    (timeGet c now).isSome = true := by
  unfold timeGet currentTimeCore
  exact applyBounds_isSome hle hstrict

theorem timeGet_loop_strict {c : Clock} {now : ℚ} {v : ERat} {m M : ℚ}
    (hmM : m ≤ M) (hm : c.minimum = .fin m) (hM : c.maximum = .fin M)
    (hl : c.loop = true) (h : timeGet c now = some v) :
    ∃ q, v = .fin q ∧ m ≤ q ∧ q < M := by
  unfold timeGet currentTimeCore at h
  rw [hm, hM, hl] at h
  exact applyBounds_loop_strict hmM h

/-! ### Claim C1 -/

/-- C1 (amended): for every clock state whose configuration is valid
(`minimum ≤ maximum`) and additionally satisfies `minimum < maximum`
whenever `loop` is set with both bounds finite, and for every wall-clock
sample, the `time` getter returns a value, that value lies within
`[minimum, maximum]`, and when looping with finite bounds it lies within
`[minimum, maximum)` — for every rate (negative and zero included),
running or stopped.  (The claim as frozen omits the `minimum < maximum`
proviso; see `c1_counterexample`.) -/
theorem c1_time_within_bounds (c : Clock) (now : ℚ)
    (hle : ERat.leb c.minimum c.maximum = true)
    (hstrict : c.loop = true → ∀ m M, c.minimum = .fin m → c.maximum = .fin M → m < M) :
    ∃ v, timeGet c now = some v ∧ ERat.leb c.minimum v = true ∧
      ERat.leb v c.maximum = true ∧
      (∀ m M, c.loop = true → c.minimum = .fin m → c.maximum = .fin M →
        ∃ q, v = .fin q ∧ m ≤ q ∧ q < M) := by
  rcases Option.isSome_iff_exists.mp (timeGet_isSome hle hstrict) with ⟨v, hv⟩
  refine ⟨v, hv, (currentTimeCore_mem hle hv).1, (currentTimeCore_mem hle hv).2, ?_⟩
  intro m M hl hm hM
  exact timeGet_loop_strict (le_of_lt (hstrict hl m M hm hM)) hm hM hl hv

/-- The reachable degenerate state `minimum = maximum = 0` with `loop`
set (reached by `clock.minimum = 0; clock.maximum = 0; clock.loop = true`):
the `time` getter evaluates `currentTime % 0`, which is `NaN`. -/
def degen0 : Clock :=
  { Clock.init 0 with minimum := .fin 0, maximum := .fin 0, loop := true }

/-- C1 counterexample: `degen0` has a valid configuration
(`minimum ≤ maximum`), yet the `time` getter returns no value at all
(`NaN`), so in particular no value within `[minimum, maximum]`. -/
theorem c1_counterexample :
    ERat.leb degen0.minimum degen0.maximum = true ∧
    ¬ ∃ v, timeGet degen0 0 = some v ∧ ERat.leb degen0.minimum v = true ∧
        ERat.leb v degen0.maximum = true := by
  constructor
  · rfl
  · rintro ⟨v, hv, _, _⟩
    have hnone : timeGet degen0 0 = none := by
      show applyBounds (0 + (if false = true then 1 * ((0:ℚ) - 0) else 0)) (.fin 0) (.fin 0) true = none
      norm_num [applyBounds, ERat.ltb, ERat.leb, timeFold]
    rw [hnone] at hv
    exact Option.noConfusion hv

/-- C1 witness: a concrete looping clock within the amended hypotheses. -/
def cWitLoop : Clock :=
  { Clock.init 0 with minimum := .fin 0, maximum := .fin 10, loop := true, previousTime := 7 }

theorem c1_witness :
    ERat.leb cWitLoop.minimum cWitLoop.maximum = true ∧
    ∃ v, timeGet cWitLoop 0 = some v ∧ ERat.leb cWitLoop.minimum v = true ∧
      ERat.leb v cWitLoop.maximum = true ∧
      (∀ m M, cWitLoop.loop = true → cWitLoop.minimum = .fin m → cWitLoop.maximum = .fin M →
        ∃ q, v = .fin q ∧ m ≤ q ∧ q < M) := by
  refine ⟨rfl, c1_time_within_bounds cWitLoop 0 rfl ?_⟩
  intro _ m M hm hM
  have em : ERat.fin 0 = ERat.fin m := hm
  have eM : ERat.fin 10 = ERat.fin M := hM
  injection em with em
  injection eM with eM
  rw [← em, ← eM]
  norm_num

/-! ### Claim C10 -/

theorem timeModel_fields {c1 c2 : Clock} (h : timeModel c1 = timeModel c2) :
    c1.previousTime = c2.previousTime ∧ c1.previousNow = c2.previousNow ∧
    c1.rate = c2.rate ∧ c1.running = c2.running ∧ c1.minimum = c2.minimum ∧
    c1.maximum = c2.maximum ∧ c1.loop = c2.loop := by
  simpa [timeModel, Prod.mk.injEq] using h

theorem Inv_of_model {c1 c2 : Clock} (h : timeModel c2 = timeModel c1)
    (hi : Inv c1 = true) : Inv c2 = true := by
  obtain ⟨e1, _, _, _, e5, e6, _⟩ := timeModel_fields h
  rw [Inv, e1, e5, e6]
  exact hi

/-- C10: the internal reference virtual time `_previousTime` satisfies
`minimum ≤ _previousTime ≤ maximum` after the constructor and after every
mutating operation (whenever the operation returns); a thrown validation
error leaves the state untouched.  Moreover `start` never rewrites
`_previousTime` (it only re-stamps the wall-clock reference), which is
what makes it correct under this invariant. -/
theorem c10_previousTime_invariant :
    (∀ n0 : ℚ, Inv (Clock.init n0) = true) ∧
    (∀ (op : Op) (c : Clock) (now : ℚ) (r : StepResult), Inv c = true →
      runOp op c now = some r →
      (∀ c2 l, r = .ok c2 l →
        Inv c2 = true ∧ (op = .opStart → c2.previousTime = c.previousTime)) ∧
      (∀ msg c2 l, r = .thrown msg c2 l → c2 = c)) := by
  constructor
  · intro n0
    rfl
  · intro op c now r hInv hrun
    cases op with
    | opStart =>
      simp only [runOp, start] at hrun
      by_cases hr : c.running = true
      · rw [if_pos hr] at hrun
        obtain rfl : StepResult.ok c [Action.emit "setrunning"] = r := by simpa using hrun
        refine ⟨?_, ?_⟩
        · intro c2 l hok
          injection hok with hc _
          subst hc
          exact ⟨hInv, fun _ => rfl⟩
        · intro msg c2 l hth
          exact StepResult.noConfusion hth
      · rw [if_neg hr] at hrun
        rw [Option.map_map] at hrun
        rcases Option.map_eq_some'.mp hrun with ⟨c2, hrec, hfr⟩
        simp only [Function.comp_apply] at hfr
        subst hfr
        obtain ⟨e1, _, _, _, e5, e6, _⟩ := timeModel_fields (recalcAll_model hrec)
        refine ⟨?_, ?_⟩
        · intro c2' l hok
          injection hok with hc _
          subst hc
          constructor
          · rw [Inv, e1, e5, e6]
            exact hInv
          · intro _
            rw [e1]
        · intro msg c2' l hth
          exact StepResult.noConfusion hth
    | opStop =>
      simp only [runOp, stop] at hrun
      by_cases hr : c.running = true
      · rw [if_pos hr] at hrun
        rcases htq : timeGetQ c now with _ | q
        · rw [htq] at hrun
          exact absurd hrun (by simp)
        · simp only [htq] at hrun
          rw [Option.map_map] at hrun
          rcases Option.map_eq_some'.mp hrun with ⟨c2, hrec, hfr⟩
          simp only [Function.comp_apply] at hfr
          subst hfr
          have hq := timeGetQ_mem (Inv_le hInv) htq
          refine ⟨?_, ?_⟩
          · intro c2' l hok
            injection hok with hc _
            subst hc
            refine ⟨Inv_of_model (recalcAll_model hrec) ?_, fun hop => Op.noConfusion hop⟩
            rw [Inv, Bool.and_eq_true]
            exact ⟨hq.1, hq.2⟩
          · intro msg c2' l hth
            exact StepResult.noConfusion hth
      · rw [if_neg hr] at hrun
        obtain rfl : StepResult.ok c [Action.emit "setrunning"] = r := by simpa using hrun
        refine ⟨?_, ?_⟩
        · intro c2 l hok
          injection hok with hc _
          subst hc
          exact ⟨hInv, fun hop => Op.noConfusion hop⟩
        · intro msg c2 l hth
          exact StepResult.noConfusion hth
    | opSetTime t =>
      simp only [runOp, setTime] at hrun
      rcases hcl : jsClampE c.minimum (.fin t) c.maximum with _ | q
      case negInf =>
        rw [hcl] at hrun
        exact absurd hrun (by simp)
      case posInf =>
        rw [hcl] at hrun
        exact absurd hrun (by simp)
      case fin =>
        simp only [hcl] at hrun
        rw [Option.map_map] at hrun
        rcases Option.map_eq_some'.mp hrun with ⟨c2, hrec, hfr⟩
        simp only [Function.comp_apply] at hfr
        subst hfr
        have hb := jsClampE_mem c.minimum (.fin t) c.maximum (Inv_le hInv)
        rw [hcl] at hb
        refine ⟨?_, ?_⟩
        · intro c2' l hok
          injection hok with hc _
          subst hc
          refine ⟨Inv_of_model (recalcAll_model hrec) ?_, fun hop => Op.noConfusion hop⟩
          rw [Inv, Bool.and_eq_true]
          exact ⟨hb.1, hb.2⟩
        · intro msg c2' l hth
          exact StepResult.noConfusion hth
    | opSetRate rr =>
      simp only [runOp, setRate] at hrun
      by_cases hr : c.running = true
      · rw [if_pos hr] at hrun
        rcases htq : timeGetQ c now with _ | q
        · rw [htq] at hrun
          exact absurd hrun (by simp)
        · simp only [htq] at hrun
          rw [Option.map_map] at hrun
          rcases Option.map_eq_some'.mp hrun with ⟨c2, hrec, hfr⟩
          simp only [Function.comp_apply] at hfr
          subst hfr
          have hq := timeGetQ_mem (Inv_le hInv) htq
          refine ⟨?_, ?_⟩
          · intro c2' l hok
            injection hok with hc _
            subst hc
            refine ⟨Inv_of_model (recalcAll_model hrec) ?_, fun hop => Op.noConfusion hop⟩
            rw [Inv, Bool.and_eq_true]
            exact ⟨hq.1, hq.2⟩
          · intro msg c2' l hth
            exact StepResult.noConfusion hth
      · rw [if_neg hr] at hrun
        rw [Option.map_map] at hrun
        rcases Option.map_eq_some'.mp hrun with ⟨c2, hrec, hfr⟩
        simp only [Function.comp_apply] at hfr
        subst hfr
        refine ⟨?_, ?_⟩
        · intro c2' l hok
          injection hok with hc _
          subst hc
          exact ⟨Inv_of_model (recalcAll_model hrec) hInv, fun hop => Op.noConfusion hop⟩
        · intro msg c2' l hth
          exact StepResult.noConfusion hth
    | opSetMinimum m =>
      simp only [runOp, setMinimum] at hrun
      rcases htg : timeGet c now with _ | prevD
      · rw [htg] at hrun
        exact absurd hrun (by simp)
      · simp only [htg] at hrun
        by_cases hval : ERat.ltb c.maximum m = true ∨ m = ERat.posInf
        · rw [if_pos hval] at hrun
          obtain rfl : StepResult.thrown "Cannot set minimum above maximum" c [] = r := by
            simpa using hrun
          refine ⟨?_, ?_⟩
          · intro c2 l hok
            exact StepResult.noConfusion hok
          · intro msg c2 l hth
            injection hth with _ hc _
            exact hc.symm
        · rw [if_neg hval] at hrun
          push_neg at hval
          have hmle : ERat.leb m c.maximum = true :=
            ERat.ltb_eq_false_iff.mp (by simpa using hval.1)
          rcases hcl : jsClampE m prevD c.maximum with _ | q | _
          · rw [hcl] at hrun
            exact absurd hrun (by simp)
          case neg.posInf =>
            rw [hcl] at hrun
            exact absurd hrun (by simp)
          case neg.fin =>
            simp only [hcl] at hrun
            rcases Option.map_eq_some'.mp hrun with ⟨c2, hrec, hfr⟩
            subst hfr
            have hb := jsClampE_mem m prevD c.maximum hmle
            rw [hcl] at hb
            refine ⟨?_, ?_⟩
            · intro c2' l hok
              injection hok with hc _
              subst hc
              refine ⟨Inv_of_model (recalcAll_model hrec) ?_, fun hop => Op.noConfusion hop⟩
              rw [Inv, Bool.and_eq_true]
              exact ⟨hb.1, hb.2⟩
            · intro msg c2' l hth
              exact StepResult.noConfusion hth
    | opSetMaximum mx =>
      simp only [runOp, setMaximum] at hrun
      rcases htg : timeGet c now with _ | prevD
      · rw [htg] at hrun
        exact absurd hrun (by simp)
      · simp only [htg] at hrun
        by_cases hval : ERat.ltb mx c.minimum = true ∨ mx = ERat.negInf
        · rw [if_pos hval] at hrun
          obtain rfl : StepResult.thrown "Cannot set maximum below minimum" c [] = r := by
            simpa using hrun
          refine ⟨?_, ?_⟩
          · intro c2 l hok
            exact StepResult.noConfusion hok
          · intro msg c2 l hth
            injection hth with _ hc _
            exact hc.symm
        · rw [if_neg hval] at hrun
          push_neg at hval
          have hmle : ERat.leb c.minimum mx = true :=
            ERat.ltb_eq_false_iff.mp (by simpa using hval.1)
          rcases hcl : jsClampE c.minimum prevD mx with _ | q | _
          · rw [hcl] at hrun
            exact absurd hrun (by simp)
          case neg.posInf =>
            rw [hcl] at hrun
            exact absurd hrun (by simp)
          case neg.fin =>
            simp only [hcl] at hrun
            rcases Option.map_eq_some'.mp hrun with ⟨c2, hrec, hfr⟩
            subst hfr
            have hb := jsClampE_mem c.minimum prevD mx hmle
            rw [hcl] at hb
            refine ⟨?_, ?_⟩
            · intro c2' l hok
              injection hok with hc _
              subst hc
              refine ⟨Inv_of_model (recalcAll_model hrec) ?_, fun hop => Op.noConfusion hop⟩
              rw [Inv, Bool.and_eq_true]
              exact ⟨hb.1, hb.2⟩
            · intro msg c2' l hth
              exact StepResult.noConfusion hth
    | opSetLoop l =>
      simp only [runOp, setLoop] at hrun
      rcases htq : timeGetQ c now with _ | q
      · rw [htq] at hrun
        exact absurd hrun (by simp)
      · simp only [htq] at hrun
        rw [Option.map_map] at hrun
        rcases Option.map_eq_some'.mp hrun with ⟨c2, hrec, hfr⟩
        simp only [Function.comp_apply] at hfr
        subst hfr
        have hq := timeGetQ_mem (Inv_le hInv) htq
        refine ⟨?_, ?_⟩
        · intro c2' l2 hok
          injection hok with hc _
          subst hc
          refine ⟨Inv_of_model (recalcAll_model hrec) ?_, fun hop => Op.noConfusion hop⟩
          rw [Inv, Bool.and_eq_true]
          exact ⟨hq.1, hq.2⟩
        · intro msg c2' l2 hth
          exact StepResult.noConfusion hth

/-- A concrete running bounded clock for the C10 witness. -/
def cS10 : Clock :=
  { Clock.init 0 with running := true, minimum := .fin 0, maximum := .fin 10, previousTime := 3 }

/-- The state after `stop()` on `cS10` at wall-clock `0`. -/
def cS10stopped : Clock := { cS10 with previousTime := 3, running := false }

/-- C10 witness: the invariant holds initially and survives a concrete
`stop()` on a running bounded clock. -/
theorem c10_witness :
    Inv cS10 = true ∧
    runOp Op.opStop cS10 0 =
      some (.ok cS10stopped [.update, .recalc, .emit "stop", .emit "setrunning"]) ∧
    Inv cS10stopped = true := by
  have h1 : Inv cS10 = true := rfl
  have h2 : runOp Op.opStop cS10 0 =
      some (.ok cS10stopped [.update, .recalc, .emit "stop", .emit "setrunning"]) := by
    simp [runOp, stop, timeGetQ, timeGet, currentTimeCore, applyBounds, jsClampE,
      ERat.maxE, ERat.minE, ERat.leb, ERat.ltb, recalcAll, cS10, cS10stopped, Clock.init]
    norm_num
  exact ⟨h1, h2,
    ((c10_previousTime_invariant.2 Op.opStop cS10 0 _ h1 h2).1 _ _ rfl).1⟩

/-! ### Claim C7 -/

/-- The events emitted in a trace, in order. -/
def emitsOf (l : List Action) : List String :=
  l.filterMap (fun a => match a with | .emit e => some e | _ => none)

/-- C7: `start()` is a no-op on the state when already running (it only
emits `setrunning`); otherwise it re-stamps the wall-clock reference
(`_previousNow := now`, leaving `_previousTime` untouched), sets `running`,
and emits `start` then `setrunning`.  `stop()` is a no-op when not running
(only `setrunning`); otherwise it freezes `_previousTime` at
`currentTime()`, clears `running`, and emits `stop` then `setrunning`.
In all four cases `setrunning` is emitted exactly once. -/
theorem c7_start_stop (c : Clock) (now : ℚ) :
    (c.running = true → start c now = some (c, [Action.emit "setrunning"])) ∧
    (c.running = false → ∀ c2 l, start c now = some (c2, l) →
      c2.running = true ∧ c2.previousNow = now ∧ c2.previousTime = c.previousTime ∧
      emitsOf l = ["start", "setrunning"]) ∧
    (c.running = false → stop c now = some (c, [Action.emit "setrunning"])) ∧
    (c.running = true → ∀ c2 l, stop c now = some (c2, l) →
      c2.running = false ∧ timeGetQ c now = some c2.previousTime ∧
      emitsOf l = ["stop", "setrunning"]) ∧
    (∀ c2 l, start c now = some (c2, l) → (emitsOf l).count "setrunning" = 1) ∧
    (∀ c2 l, stop c now = some (c2, l) → (emitsOf l).count "setrunning" = 1) := by
  refine ⟨?_, ?_, ?_, ?_, ?_, ?_⟩
  · intro hr
    unfold start
    rw [if_pos hr]
  · intro hr c2 l h
    unfold start at h
    rw [if_neg (by simp [hr])] at h
    rcases Option.map_eq_some'.mp h with ⟨a, hrec, hpr⟩
    injection hpr with ha hl
    subst ha
    subst hl
    obtain ⟨e1, e2, _, e4, _, _, _⟩ := timeModel_fields (recalcAll_model hrec)
    exact ⟨e4, e2, e1, rfl⟩
  · intro hr
    unfold stop
    rw [if_neg (by simp [hr])]
  · intro hr c2 l h
    unfold stop at h
    rw [if_pos hr] at h
    rcases htq : timeGetQ c now with _ | q
    · rw [htq] at h
      exact absurd h (by simp)
    · rw [htq] at h
      rcases Option.map_eq_some'.mp h with ⟨a, hrec, hpr⟩
      injection hpr with ha hl
      subst ha
      subst hl
      obtain ⟨e1, _, _, e4, _, _, _⟩ := timeModel_fields (recalcAll_model hrec)
      refine ⟨e4, ?_, rfl⟩
      rw [e1]
  · intro c2 l h
    unfold start at h
    by_cases hr : c.running = true
    · rw [if_pos hr] at h
      injection h with h
      injection h with _ hl
      subst hl
      rfl
    · rw [if_neg hr] at h
      rcases Option.map_eq_some'.mp h with ⟨a, _, hpr⟩
      injection hpr with _ hl
      subst hl
      rfl
  · intro c2 l h
    unfold stop at h
    by_cases hr : c.running = true
    · rw [if_pos hr] at h
      rcases htq : timeGetQ c now with _ | q
      · rw [htq] at h
        exact absurd h (by simp)
      · rw [htq] at h
        rcases Option.map_eq_some'.mp h with ⟨a, _, hpr⟩
        injection hpr with _ hl
        subst hl
        rfl
    · rw [if_neg hr] at h
      injection h with h
      injection h with _ hl
      subst hl
      rfl

/-- C7 witness: concrete `start` on the freshly constructed (stopped)
clock. -/
theorem c7_witness :
    (Clock.init 0).running = false ∧
    start (Clock.init 0) 5 =
      some ({ Clock.init 0 with previousNow := 5, running := true },
        [.update, .recalc, .emit "start", .emit "setrunning"]) ∧
    ({ Clock.init 0 with previousNow := 5, running := true }).running = true ∧
    emitsOf [.update, .recalc, .emit "start", .emit "setrunning"] = ["start", "setrunning"] := by
  have h2 : start (Clock.init 0) 5 =
      some ({ Clock.init 0 with previousNow := 5, running := true },
        [.update, .recalc, .emit "start", .emit "setrunning"]) := by
    simp [start, recalcAll, Clock.init]
  have h := (c7_start_stop (Clock.init 0) 5).2.1 rfl _ _ h2
  exact ⟨rfl, h2, h.1, h.2.2.2⟩

/-! ### Claim C8 -/

/-- Phase of a trace action: state updates happen first, then the timer
recomputation, then the event emissions. -/
def phaseOf : Action → ℕ
  | .update => 0
  | .recalc => 1
  | .emit _ => 2

/-- Non-decreasing phases along a trace, starting from phase `st`. -/
def phasesMono : List Action → ℕ → Bool
  | [], _ => true
  | a :: rest, st => (decide (st ≤ phaseOf a)) && phasesMono rest (phaseOf a)

/-- A trace is well-ordered when no action of an earlier phase follows one
of a later phase (so every `recalc` is after every state update and before
every `emit`), and a trace that updates state also recomputes timers. -/
def logOrdered (l : List Action) : Bool :=
  phasesMono l 0 && (!(l.contains .update) || l.contains .recalc)

/-- The trace of a step result. -/
def logOf : StepResult → List Action
  | .ok _ l => l
  | .thrown _ _ l => l

/-- C8: for every mutating operation, whenever it returns, its trace is
ordered: state updates strictly precede the timer recomputation, which
strictly precedes every emitted event, and any state-updating trace does
recompute the timers. -/
theorem c8_recalc_before_emit (op : Op) (c : Clock) (now : ℚ) (r : StepResult)
    (hrun : runOp op c now = some r) : logOrdered (logOf r) = true := by
  cases op <;>
    simp only [runOp, start, stop, setTime, setRate, setMinimum, setMaximum, setLoop] at hrun <;>
    (repeat' split at hrun) <;>
    try rw [Option.map_map] at hrun
  all_goals first
    | exact Option.noConfusion hrun
    | (injection hrun with h
       subst h
       rfl)
    | (obtain ⟨x, hx, hfr⟩ := Option.map_eq_some'.mp hrun
       subst hfr
       first
         | rfl
         | (injection hx with hx
            subst hx
            rfl))

/-- C8 witness: a concrete `set time` on the fresh clock. -/
theorem c8_witness :
    runOp (Op.opSetTime 4) (Clock.init 0) 0 =
      some (.ok { Clock.init 0 with previousTime := 4, previousNow := 0 }
        [.update, .recalc, .emit "settime"]) ∧
    logOrdered [.update, .recalc, .emit "settime"] = true := by
  have h : runOp (Op.opSetTime 4) (Clock.init 0) 0 =
      some (.ok { Clock.init 0 with previousTime := 4, previousNow := 0 }
        [.update, .recalc, .emit "settime"]) := by
    simp [runOp, setTime, jsClampE, ERat.maxE, ERat.minE, ERat.leb, recalcAll, Clock.init]
  exact ⟨h, c8_recalc_before_emit _ _ _ _ h⟩

/-! ### Claim C9 -/

/-- C9: detaching a never-attached event listener fails (throws) without
mutating anything, while removing an unmatched time listener is a silent
no-op returning the clock unchanged — for every event name, time and
callback. -/
theorem c9_off_throws_removeAt_silent :
    (∀ (c : Clock) (ev : String) (cb : ℕ),
      (∀ p ∈ c.eventListeners, p.1 = ev → cb ∉ p.2) →
      offEv c ev cb = none) ∧
    (∀ (c : Clock) (t : ℚ) (cb : ℕ),
      (∀ p ∈ c.timeListeners, ¬(p.2.time = t ∧ p.2.callback = cb)) →
      removeAt c t cb = c) := by
  constructor
  · intro c ev cb hno
    unfold offEv
    rcases hf : c.eventListeners.find? (fun p => p.1 == ev) with _ | p
    · simp only [hf]
    · have hp : p.1 = ev := by simpa using List.find?_some hf
      have hmem : p ∈ c.eventListeners := List.mem_of_find?_eq_some hf
      simp only [hf]
      rw [if_neg (hno p hmem hp)]
  · intro c t cb hno
    unfold removeAt
    have : c.timeListeners.filter
        (fun p => !(p.2.time == t && p.2.callback == cb)) = c.timeListeners := by
      rw [List.filter_eq_self]
      intro p hp
      have := hno p hp
      simp only [Bool.not_eq_true', Bool.and_eq_false_iff]
      by_cases ht : p.2.time = t
      · right
        simp only [beq_eq_false_iff_ne, ne_eq]
        intro hcb
        exact this ⟨ht, hcb⟩
      · left
        simp only [beq_eq_false_iff_ne, ne_eq]
        exact ht
    rw [this]

/-- C9 witness: concrete lookups on a clock with one attached `start`
listener. -/
def cEv : Clock := { Clock.init 0 with eventListeners := [("start", [5])] }

theorem c9_witness :
    offEv cEv "stop" 9 = none ∧ removeAt (Clock.init 0) 3 4 = Clock.init 0 := by
  constructor
  · refine c9_off_throws_removeAt_silent.1 cEv "stop" 9 ?_
    intro p hp hev
    simp [cEv] at hp
    subst hp
    exact absurd hev (by decide)
  · refine c9_off_throws_removeAt_silent.2 (Clock.init 0) 3 4 ?_
    intro p hp
    simp [Clock.init] at hp

/-! ### Claim C2 -/

/-- The timer-delay computation as the spec words it (claim C2): measure
the distance in the direction of travel (`targetTime - now` for positive
rate, `now - targetTime` otherwise); a negative distance is increased by
the loop span when looping with both bounds finite and otherwise arms no
timer; the distance is divided by `|rate|` and rounded up to whole
milliseconds. -/
def specScheduleDelay (rate t q : ℚ) (loop : Bool) (mn mx : ERat) : Option ℤ :=
  if (if rate > 0 then t - q else q - t) < 0 then
    match loop, mn, mx with
    | true, .fin m, .fin M =>
      some ⌈((if rate > 0 then t - q else q - t) + (M - m)) / |rate|⌉
    | _, _, _ => none
  else
    some ⌈(if rate > 0 then t - q else q - t) / |rate|⌉

theorem find?_map_update (l : List (ℕ × TimeListener)) (k : ℕ) (L' : TimeListener)
    (h : (l.find? (fun p => p.1 == k)).isSome = true) :
    (l.map (fun p => if p.1 == k then (k, L') else p)).find? (fun p => p.1 == k)
      = some (k, L') := by
  induction l with
  | nil => simp at h
  | cons a l ih =>
    simp only [List.map_cons]
    by_cases ha : (a.1 == k) = true
    · rw [if_pos ha, List.find?_cons_of_pos _ (by simp)]
    · rw [if_neg ha, List.find?_cons_of_neg _ (by simpa using ha)]
      rw [List.find?_cons_of_neg _ (by simpa using ha)] at h
      exact ih h

theorem lookupTL_setTL {c : Clock} {k : ℕ} {L L' : TimeListener}
    (h : lookupTL c k = some L) : lookupTL (setTL c k L') k = some L' := by
  unfold lookupTL at h ⊢
  unfold setTL
  simp only []
  rw [find?_map_update]
  · rfl
  · rcases hf : c.timeListeners.find? (fun p => p.1 == k) with _ | p
    · rw [hf] at h
      exact absurd h (by simp)
    · rw [hf]
      rfl

/-- C2: for a registered listener with reachable target (clock running,
nonzero rate, target within `[minimum, maximum]`, current time differing
from the listener's last-fired time), `_recalculateTimeListener` arms a
fresh firing timeout for exactly the spec's delay — direction-dependent
distance, loop-span correction for negative distances under looping with
finite bounds, division by `|rate|`, ceiling — and when the spec computes
no delay (target unreachable going forward), it cancels the pending timer
and arms nothing. -/
theorem c2_delay_computation (c : Clock) (k : ℕ) (now : ℚ) (L : TimeListener) (q : ℚ)
    (hlk : lookupTL c k = some L)
    (hrun : c.running = true) (hrate : c.rate ≠ 0)
    (hmin : ERat.leb c.minimum (.fin L.time) = true)
    (hmax : ERat.leb (.fin L.time) c.maximum = true)
    (htq : timeGetQ c now = some q)
    (hne : L.lastCalled ≠ some q) :
    ∃ c2, recalcOne c k now = some c2 ∧
      (specScheduleDelay c.rate L.time q c.loop c.minimum c.maximum = none →
        c2 = clearTimeoutF c L.timeoutId) ∧
      (∀ d, specScheduleDelay c.rate L.time q c.loop c.minimum c.maximum = some d →
        c2.activeTimeouts =
          (c.activeTimeouts.filter (fun tmo => tmo.id != L.timeoutId)) ++
            [⟨c.nextTimeoutId, d, k, .fireK⟩] ∧
        c2.nextTimeoutId = c.nextTimeoutId + 1 ∧
        lookupTL c2 k = some { L with timeoutId := c.nextTimeoutId, lastCalled := none }) := by
  have htq1 : timeGetQ (clearTimeoutF c L.timeoutId) now = some q := by
    rw [@timeGetQ_congr (clearTimeoutF c L.timeoutId) c rfl now]
    exact htq
  rw [recalcOne.eq_def]
  simp only [hlk]
  rw [if_pos ⟨hrun, hrate, hmin, hmax⟩]
  simp only [htq1]
  rw [if_neg (by simpa using hne)]
  set u : ℚ := if (clearTimeoutF c L.timeoutId).rate > 0 then L.time - q else q - L.time with hu
  have huc : u = if c.rate > 0 then L.time - q else q - L.time := rfl
  unfold specScheduleDelay
  simp only [← huc]
  by_cases h0 : 0 ≤ u
  · rw [if_pos h0, if_neg (not_lt.mpr h0)]
    refine ⟨armFire (clearTimeoutF c L.timeoutId) k L u, rfl, ?_, ?_⟩
    · intro hc
      exact Option.noConfusion hc
    · intro d hd
      obtain rfl : ⌈u / |c.rate|⌉ = d := by simpa using hd
      unfold armFire setTimeoutF setTL clearTimeoutF
      refine ⟨?_, rfl, ?_⟩
      · simp only []
        rw [mul_one_div]
      · have : lookupTL (clearTimeoutF c L.timeoutId) k = some L := hlk
        have h2 := @lookupTL_setTL (clearTimeoutF c L.timeoutId) k L { L with
          timeoutId := (setTimeoutF (clearTimeoutF c L.timeoutId) ⌈u * (1 / |c.rate|)⌉ k .fireK).2,
          lastCalled := none } this
        rw [mul_one_div] at h2
        exact h2
  · rw [if_neg h0, if_pos (not_le.mp h0)]
    rcases hmn : c.minimum with _ | m | _ <;> rcases hmx : c.maximum with _ | M | _ <;>
      simp only [show (clearTimeoutF c L.timeoutId).minimum = c.minimum from rfl,
        show (clearTimeoutF c L.timeoutId).maximum = c.maximum from rfl, hmn, hmx]
    rotate_left 4
    ·
      by_cases hl : c.loop = true
      · rw [if_pos (show (clearTimeoutF c L.timeoutId).loop = true from hl)]
        simp only [hl]
        refine ⟨armFire (clearTimeoutF c L.timeoutId) k L (u + (M - m)), rfl, ?_, ?_⟩
        · intro hc
          exact Option.noConfusion hc
        · intro d hd
          obtain rfl : ⌈(u + (M - m)) / |c.rate|⌉ = d := by simpa using hd
          unfold armFire setTimeoutF setTL clearTimeoutF
          refine ⟨?_, rfl, ?_⟩
          · simp only []
            rw [mul_one_div]
          · have : lookupTL (clearTimeoutF c L.timeoutId) k = some L := hlk
            have h2 := @lookupTL_setTL (clearTimeoutF c L.timeoutId) k L { L with
              timeoutId := (setTimeoutF (clearTimeoutF c L.timeoutId)
                ⌈(u + (M - m)) * (1 / |c.rate|)⌉ k .fireK).2,
              lastCalled := none } this
            rw [mul_one_div] at h2
            exact h2
      · rw [if_neg (show ¬(clearTimeoutF c L.timeoutId).loop = true from hl)]
        simp only [Bool.not_eq_true] at hl
        simp only [hl]
        exact ⟨_, rfl, fun _ => rfl, fun d hd => Option.noConfusion hd⟩
    all_goals
      refine ⟨_, rfl, fun _ => rfl, fun d hd => ?_⟩
    all_goals
      rcases hlc : c.loop with _ | _ <;> rw [hlc] at hd <;> exact Option.noConfusion hd

/-- C2 witness: a fresh running clock (rate `1`) with a listener at
virtual time `5`: the timer is armed with delay `⌈5 / 1⌉ = 5` ms. -/
def cW2 : Clock :=
  { Clock.init 0 with running := true, timeListeners := [(1, ⟨5, 7, 0, none, true⟩)] }

theorem c2_witness :
    ∃ c2, recalcOne cW2 1 0 = some c2 ∧
      c2.activeTimeouts = [⟨1, 5, 1, TKind.fireK⟩] ∧
      c2.nextTimeoutId = 2 ∧
      lookupTL c2 1 = some ⟨5, 7, 1, none, true⟩ := by
  have htq : timeGetQ cW2 0 = some 0 := by
    simp [timeGetQ, timeGet, currentTimeCore, applyBounds, jsClampE, ERat.maxE,
      ERat.minE, ERat.leb, ERat.ltb, cW2, Clock.init]
  obtain ⟨c2, hrec, hnone, hsome⟩ :=
    c2_delay_computation cW2 1 0 ⟨5, 7, 0, none, true⟩ 0 rfl rfl
      (by show (1 : ℚ) ≠ 0; norm_num) rfl rfl htq (by simp)
  have hs : specScheduleDelay cW2.rate 5 0 cW2.loop cW2.minimum cW2.maximum = some 5 := by
    norm_num [specScheduleDelay, cW2, Clock.init]
  obtain ⟨ha, hn, hl⟩ := hsome 5 hs
  refine ⟨c2, hrec, ?_, ?_, ?_⟩
  · rw [ha]
    rfl
  · rw [hn]
    rfl
  · rw [hl]
    rfl

/-! ### Claim C3 -/

/-- What `_recalculateTimeListener` does to one entry on a stopped (or
otherwise unreachable) clock: clear its pending timeout and nothing else. -/
def eraseKeyTimer (c : Clock) (k : ℕ) : Clock :=
  match lookupTL c k with
  | none => c
  | some L => clearTimeoutF c L.timeoutId

theorem recalcOne_stopped {c : Clock} {k : ℕ} {now : ℚ} (h : c.running = false) :
    recalcOne c k now = some (eraseKeyTimer c k) := by
  rw [recalcOne.eq_def]
  unfold eraseKeyTimer
  rcases hlk : lookupTL c k with _ | L
  · simp [hlk]
  · simp only [hlk]
    rw [if_neg]
    rintro ⟨hr, -⟩
    rw [show (clearTimeoutF c L.timeoutId).running = c.running from rfl, h] at hr
    exact Bool.noConfusion hr

theorem eraseKeyTimer_tl (c : Clock) (k : ℕ) :
    (eraseKeyTimer c k).timeListeners = c.timeListeners := by
  unfold eraseKeyTimer
  split <;> rfl

theorem eraseKeyTimer_running (c : Clock) (k : ℕ) :
    (eraseKeyTimer c k).running = c.running := by
  unfold eraseKeyTimer
  split <;> rfl

theorem lookupTL_congr {c1 c2 : Clock} (h : c1.timeListeners = c2.timeListeners)
    (k : ℕ) : lookupTL c1 k = lookupTL c2 k := by
  unfold lookupTL
  rw [h]

theorem foldlM_stopped (ks : List ℕ) (c : Clock) (now : ℚ) (h : c.running = false) :
    List.foldlM (fun a k => recalcOne a k now) c ks = some (ks.foldl eraseKeyTimer c) := by
  induction ks generalizing c with
  | nil => rfl
  | cons k ks ih =>
    rw [List.foldlM_cons, recalcOne_stopped h]
    simp only [Option.bind_eq_bind, Option.some_bind]
    rw [List.foldl_cons]
    exact ih _ (by rw [eraseKeyTimer_running]; exact h)

theorem mem_foldl_erase (ks : List ℕ) (c : Clock) (t : Timeout)
    (h : t ∈ (ks.foldl eraseKeyTimer c).activeTimeouts) :
    t ∈ c.activeTimeouts ∧
      ∀ k ∈ ks, ∀ L, lookupTL c k = some L → t.id ≠ L.timeoutId := by
  induction ks generalizing c with
  | nil => exact ⟨by simpa using h, by simp⟩
  | cons k ks ih =>
    rw [List.foldl_cons] at h
    obtain ⟨h1, h2⟩ := ih (eraseKeyTimer c k) h
    have hstep : t ∈ c.activeTimeouts ∧
        (∀ L, lookupTL c k = some L → t.id ≠ L.timeoutId) := by
      unfold eraseKeyTimer at h1
      rcases hlk : lookupTL c k with _ | L
      · simp only [hlk] at h1
        exact ⟨h1, fun L hL => absurd hL (by simp)⟩
      · simp only [hlk] at h1
        unfold clearTimeoutF at h1
        obtain ⟨hm, hp⟩ := List.mem_filter.mp h1
        refine ⟨hm, ?_⟩
        intro L' hL'
        obtain rfl : L = L' := Option.some.inj hL'
        simpa using hp
    refine ⟨hstep.1, ?_⟩
    intro k' hk' L hL
    rcases List.mem_cons.mp hk' with rfl | hk'
    · exact hstep.2 L hL
    · exact h2 k' hk' L ((lookupTL_congr (eraseKeyTimer_tl c k) k').trans hL)

/-- Every armed timeout belongs to a registered listener whose stored
`timeoutId` is that timeout's handle, as the scheduler maintains. -/
def Synced (c : Clock) : Bool :=
  c.activeTimeouts.all (fun t =>
    match lookupTL c t.key with
    | some L => L.timeoutId == t.id
    | none => false)

/-- C3: when a recompute runs for a registered listener while the clock is
not running, the rate is zero, or the target lies outside
`[minimum, maximum]`, the entry's pending timer is cleared and no new
timer is armed (the state change is exactly `clearTimeout`); consequently
`stop()` on a running clock whose timers are consistently owned leaves no
armed timeout at all, so no listener fires while stopped. -/
theorem c3_unreachable_unscheduled :
    (∀ (c : Clock) (k : ℕ) (now : ℚ) (L : TimeListener), lookupTL c k = some L →
      (c.running = false ∨ c.rate = 0 ∨ ERat.leb c.minimum (.fin L.time) = false ∨
        ERat.leb (.fin L.time) c.maximum = false) →
      recalcOne c k now = some (clearTimeoutF c L.timeoutId)) ∧
    (∀ (c : Clock) (now : ℚ) (c2 : Clock) (l : List Action), Synced c = true →
      c.running = true → stop c now = some (c2, l) → c2.activeTimeouts = []) := by
  constructor
  · intro c k now L hlk hcond
    rw [recalcOne.eq_def]
    simp only [hlk]
    rw [if_neg]
    rintro ⟨h1, h2, h3, h4⟩
    rcases hcond with hc | hc | hc | hc
    · rw [show (clearTimeoutF c L.timeoutId).running = c.running from rfl, hc] at h1
      exact Bool.noConfusion h1
    · exact h2 hc
    · have h3' : ERat.leb c.minimum (.fin L.time) = true := h3
      rw [hc] at h3'
      exact Bool.noConfusion h3'
    · have h4' : ERat.leb (.fin L.time) c.maximum = true := h4
      rw [hc] at h4'
      exact Bool.noConfusion h4'
  · intro c now c2 l hsync hr hstop
    unfold stop at hstop
    rw [if_pos hr] at hstop
    rcases htq : timeGetQ c now with _ | q
    · rw [htq] at hstop
      exact absurd hstop (by simp)
    · rw [htq] at hstop
      rcases Option.map_eq_some'.mp hstop with ⟨a, hrec, hpr⟩
      injection hpr with ha hl
      subst ha
      subst hl
      unfold recalcAll at hrec
      rw [foldlM_stopped _ _ _ rfl] at hrec
      obtain rfl := Option.some.inj hrec
      rw [List.eq_nil_iff_forall_not_mem]
      intro t ht
      obtain ⟨hmem, hall⟩ := mem_foldl_erase _ _ _ ht
      have hs := List.all_eq_true.mp hsync t hmem
      rcases hlk : lookupTL c t.key with _ | L
      · simp only [hlk] at hs
        exact Bool.noConfusion hs
      · simp only [hlk] at hs
        have hid : L.timeoutId = t.id := by simpa using hs
        have hkey : t.key ∈ c.timeListeners.map Prod.fst := by
          unfold lookupTL at hlk
          rcases hf : c.timeListeners.find? (fun p => p.1 == t.key) with _ | p
          · rw [hf] at hlk
            exact absurd hlk (by simp)
          · rw [hf] at hlk
            have hpm : p ∈ c.timeListeners := List.mem_of_find?_eq_some hf
            have hpk : p.1 = t.key := by simpa using List.find?_some hf
            exact hpk ▸ List.mem_map_of_mem Prod.fst hpm
        exact hall t.key hkey L ((lookupTL_congr rfl t.key).trans hlk) hid.symm

/-- A stopped clock with one registered listener whose stale timeout `3`
is still armed. -/
def cW3 : Clock :=
  { Clock.init 0 with
      timeListeners := [(1, ⟨5, 7, 3, none, true⟩)],
      activeTimeouts := [⟨3, 5, 1, .fireK⟩],
      nextTimeoutId := 4 }

/-- The same clock, running. -/
def cW3run : Clock := { cW3 with running := true }

theorem c3_witness :
    recalcOne cW3 1 0 = some (clearTimeoutF cW3 3) ∧
    Synced cW3run = true ∧
    stop cW3run 0 =
      some ({ cW3run with previousTime := 0, running := false, activeTimeouts := [] },
        [.update, .recalc, .emit "stop", .emit "setrunning"]) ∧
    ({ cW3run with previousTime := 0, running := false, activeTimeouts := [] } :
      Clock).activeTimeouts = [] := by
  have h1 := c3_unreachable_unscheduled.1 cW3 1 0 ⟨5, 7, 3, none, true⟩ rfl (Or.inl rfl)
  have hstop : stop cW3run 0 =
      some ({ cW3run with previousTime := 0, running := false, activeTimeouts := [] },
        [.update, .recalc, .emit "stop", .emit "setrunning"]) := by
    simp [stop, timeGetQ, timeGet, currentTimeCore, applyBounds, jsClampE, ERat.maxE,
      ERat.minE, ERat.leb, ERat.ltb, recalcAll, recalcOne, lookupTL, clearTimeoutF,
      cW3run, cW3, Clock.init]
  exact ⟨h1, rfl, hstop,
    c3_unreachable_unscheduled.2 cW3run 0 _ _ rfl rfl hstop⟩

/-! ### Claim C5 -/

/-- A value lies inside the effective bounds: within `[mn, mx]`, and
strictly below the maximum when looping with both bounds finite (where
time lives in `[minimum, maximum)`). -/
def insideNewBounds (mn mx : ERat) (loop : Bool) (d : ℚ) : Bool :=
  ERat.leb mn (.fin d) && ERat.leb (.fin d) mx &&
    (match loop, mn, mx with
     | true, .fin _, .fin M => decide (d < M)
     | _, _, _ => true)

theorem applyBounds_id (d : ℚ) (mn mx : ERat) (loop : Bool)
    (h1 : ERat.leb mn (.fin d) = true) (h2 : ERat.leb (.fin d) mx = true)
    (h3 : loop = true → ∀ m M, mn = .fin m → mx = .fin M → d < M) :
    applyBounds d mn mx loop = some (.fin d) := by
  unfold applyBounds
  split_ifs with hg
  · obtain ⟨hl, g1, g2⟩ := hg
    cases mn with
    | negInf => simp [ERat.ltb, ERat.leb] at g1
    | posInf => simp [ERat.leb] at h1
    | fin m =>
      cases mx with
      | negInf => simp [ERat.leb] at h2
      | posInf => simp [ERat.ltb, ERat.leb] at g2
      | fin M =>
        show (timeFold d m M).map ERat.fin = some (.fin d)
        rw [timeFold_id d m M (by simpa [ERat.leb] using h1) (h3 hl m M rfl rfl)]
        rfl
  · rw [jsClampE_id mn (.fin d) mx h1 h2]

theorem insideNewBounds_spec {mn mx : ERat} {loop : Bool} {d : ℚ}
    (h : insideNewBounds mn mx loop d = true) :
    ERat.leb mn (.fin d) = true ∧ ERat.leb (.fin d) mx = true ∧
      (loop = true → ∀ m M, mn = .fin m → mx = .fin M → d < M) := by
  unfold insideNewBounds at h
  rw [Bool.and_eq_true, Bool.and_eq_true] at h
  refine ⟨h.1.1, h.1.2, ?_⟩
  intro hl m M hm hM
  have := h.2
  rw [hl, hm, hM] at this
  simpa using this

/-- C5 (amended): if the displayed time read under the old bounds lies
inside the new *effective* bounds — `[minimum, maximum]`, tightened to
`[minimum, maximum)` when `loop` is set and both new bounds are finite —
then setting `minimum` (or `maximum`) leaves the displayed time at the
same wall-clock sample exactly unchanged.  (The claim as frozen uses the
closed interval even under looping; see `c5_counterexample`.) -/
theorem c5_bound_set_preserves_time :
    (∀ (c : Clock) (now d : ℚ) (m' : ERat) (c2 : Clock) (l : List Action),
      timeGet c now = some (.fin d) →
      insideNewBounds m' c.maximum c.loop d = true →
      setMinimum c m' now = some (.ok c2 l) →
      timeGet c2 now = some (.fin d)) ∧
    (∀ (c : Clock) (now d : ℚ) (M' : ERat) (c2 : Clock) (l : List Action),
      timeGet c now = some (.fin d) →
      insideNewBounds c.minimum M' c.loop d = true →
      setMaximum c M' now = some (.ok c2 l) →
      timeGet c2 now = some (.fin d)) := by
  constructor
  · intro c now d m' c2 l htg hinside hset
    obtain ⟨h1, h2, h3⟩ := insideNewBounds_spec hinside
    unfold setMinimum at hset
    simp only [htg] at hset
    by_cases hval : ERat.ltb c.maximum m' = true ∨ m' = ERat.posInf
    · rw [if_pos hval] at hset
      simp at hset
    · rw [if_neg hval] at hset
      have hcl : jsClampE m' (.fin d) c.maximum = .fin d := jsClampE_id _ _ _ h1 h2
      simp only [hcl] at hset
      rcases Option.map_eq_some'.mp hset with ⟨a, hrec, hfr⟩
      injection hfr with ha hl2
      subst ha
      rw [timeGet_congr (recalcAll_model hrec) now]
      unfold timeGet currentTimeCore
      have hct : ∀ b : Bool, (d + (if b = true then c.rate * (now - now) else 0)) = d := by
        intro b
        cases b <;> simp
      rw [show ({ c with minimum := m', previousTime := d, previousNow := now } : Clock).previousTime
          + (if ({ c with minimum := m', previousTime := d, previousNow := now } : Clock).running = true
              then ({ c with minimum := m', previousTime := d, previousNow := now } : Clock).rate
                * (now - ({ c with minimum := m', previousTime := d, previousNow := now } : Clock).previousNow)
              else 0) = d from hct c.running]
      exact applyBounds_id d m' c.maximum c.loop h1 h2 h3
  · intro c now d M' c2 l htg hinside hset
    obtain ⟨h1, h2, h3⟩ := insideNewBounds_spec hinside
    unfold setMaximum at hset
    simp only [htg] at hset
    by_cases hval : ERat.ltb M' c.minimum = true ∨ M' = ERat.negInf
    · rw [if_pos hval] at hset
      simp at hset
    · rw [if_neg hval] at hset
      have hcl : jsClampE c.minimum (.fin d) M' = .fin d := jsClampE_id _ _ _ h1 h2
      simp only [hcl] at hset
      rcases Option.map_eq_some'.mp hset with ⟨a, hrec, hfr⟩
      injection hfr with ha hl2
      subst ha
      rw [timeGet_congr (recalcAll_model hrec) now]
      unfold timeGet currentTimeCore
      have hct : ∀ b : Bool, (d + (if b = true then c.rate * (now - now) else 0)) = d := by
        intro b
        cases b <;> simp
      rw [show ({ c with maximum := M', previousTime := d, previousNow := now } : Clock).previousTime
          + (if ({ c with maximum := M', previousTime := d, previousNow := now } : Clock).running = true
              then ({ c with maximum := M', previousTime := d, previousNow := now } : Clock).rate
                * (now - ({ c with maximum := M', previousTime := d, previousNow := now } : Clock).previousNow)
              else 0) = d from hct c.running]
      exact applyBounds_id d c.minimum M' c.loop h1 h2 h3

/-- A looping clock with `minimum = -∞`, `maximum = 10` and displayed time
exactly `10` (reachable: `maximum = 10; loop = true; time = 100`). -/
def cX5 : Clock :=
  { Clock.init 0 with maximum := .fin 10, loop := true, previousTime := 10 }

/-- The state after `cX5.minimum = 0` at wall-clock `0`. -/
def cX5' : Clock :=
  { cX5 with minimum := .fin 0, previousTime := 10, previousNow := 0 }

/-- C5 counterexample: the displayed time `10` lies inside the new bounds
`[0, 10]`, yet after setting `minimum = 0` the displayed time becomes
`0` (the getter now folds `10` by `10 % 10`), not `10`. -/
theorem c5_counterexample :
    timeGet cX5 0 = some (.fin 10) ∧
    ERat.leb (.fin 0) (.fin 10) = true ∧
    ERat.leb (.fin 10) cX5.maximum = true ∧
    setMinimum cX5 (.fin 0) 0 =
      some (.ok cX5' [.update, .update, .recalc, .emit "setminimum"]) ∧
    timeGet cX5' 0 = some (.fin 0) := by
  refine ⟨?_, rfl, rfl, ?_, ?_⟩
  · simp [timeGet, currentTimeCore, applyBounds, jsClampE, ERat.maxE, ERat.minE,
      ERat.leb, ERat.ltb, cX5, Clock.init]
  · simp [setMinimum, timeGet, currentTimeCore, applyBounds, jsClampE, ERat.maxE,
      ERat.minE, ERat.leb, ERat.ltb, recalcAll, cX5, cX5', Clock.init]
  · simp [timeGet, currentTimeCore, applyBounds, timeFold, jsMod, truncQ,
      ERat.leb, ERat.ltb, cX5', cX5, Clock.init] <;> norm_num

/-- A looping clock with displayed time `3`, strictly inside the new
bounds, for the C5 witness. -/
def cW5 : Clock :=
  { Clock.init 0 with maximum := .fin 10, loop := true, previousTime := 3 }

/-- The state after `cW5.minimum = 0`. -/
def cW5' : Clock :=
  { cW5 with minimum := .fin 0, previousTime := 3, previousNow := 0 }

theorem c5_witness :
    timeGet cW5 0 = some (.fin 3) ∧
    insideNewBounds (.fin 0) cW5.maximum cW5.loop 3 = true ∧
    setMinimum cW5 (.fin 0) 0 =
      some (.ok cW5' [.update, .update, .recalc, .emit "setminimum"]) ∧
    timeGet cW5' 0 = some (.fin 3) := by
  have htg : timeGet cW5 0 = some (.fin 3) := by
    simp [timeGet, currentTimeCore, applyBounds, jsClampE, ERat.maxE, ERat.minE,
      ERat.leb, ERat.ltb, cW5, Clock.init] <;> norm_num
  have hset : setMinimum cW5 (.fin 0) 0 =
      some (.ok cW5' [.update, .update, .recalc, .emit "setminimum"]) := by
    simp [setMinimum, timeGet, currentTimeCore, applyBounds, jsClampE, ERat.maxE,
      ERat.minE, ERat.leb, ERat.ltb, recalcAll, cW5, cW5', Clock.init] <;> norm_num
  have hin : insideNewBounds (.fin 0) cW5.maximum cW5.loop 3 = true := by
    norm_num [insideNewBounds, ERat.leb, cW5, Clock.init]
  exact ⟨htg, hin, hset,
    c5_bound_set_preserves_time.1 cW5 0 3 (.fin 0) cW5' _ htg hin hset⟩

/-! ### Claim C6 -/

/-- C6 (amended): `removeAt(time, callback)` deletes exactly the entries
whose time and callback both match; it does not cancel their pending
real-time timers (`activeTimeouts` is untouched), but a timer that later
fires for an unregistered key invokes no callback and changes nothing, so
no removed listener's callback can run.  (The claim as frozen asserts the
timers are cancelled immediately; see `c6_counterexample`.) -/
theorem c6_removeAt_semantics :
    (∀ (c : Clock) (t : ℚ) (cb : ℕ),
      (removeAt c t cb).activeTimeouts = c.activeTimeouts) ∧
    (∀ (c : Clock) (t : ℚ) (cb : ℕ) (p : ℕ × TimeListener),
      p ∈ (removeAt c t cb).timeListeners ↔
        p ∈ c.timeListeners ∧ ¬(p.2.time = t ∧ p.2.callback = cb)) ∧
    (∀ (c : Clock) (k : ℕ) (now : ℚ), lookupTL c k = none →
      fireTimerBody c k now = some (c, false)) := by
  refine ⟨fun _ _ _ => rfl, ?_, ?_⟩
  · intro c t cb p
    unfold removeAt
    simp only [List.mem_filter]
    constructor
    · rintro ⟨hm, hp⟩
      refine ⟨hm, ?_⟩
      rintro ⟨ht, hcb⟩
      rw [ht, hcb] at hp
      simp at hp
    · rintro ⟨hm, hp⟩
      refine ⟨hm, ?_⟩
      simp only [Bool.not_eq_true', Bool.and_eq_false_iff]
      by_cases ht : p.2.time = t
      · right
        simp only [beq_eq_false_iff_ne, ne_eq]
        intro hcb
        exact hp ⟨ht, hcb⟩
      · left
        simp only [beq_eq_false_iff_ne, ne_eq]
        exact ht
  · intro c k now hlk
    unfold fireTimerBody
    simp only [hlk]

/-- A running clock about to register a listener, and the state with the
listener registered and its firing timeout armed. -/
def cReg : Clock := { Clock.init 0 with running := true }

def cArmed : Clock :=
  { cReg with
      timeListeners := [(1, ⟨5, 7, 1, none, true⟩)],
      activeTimeouts := [⟨1, 5, 1, .fireK⟩],
      nextTimeoutId := 2,
      nextListenerId := 2 }

/-- C6 counterexample: after `onceAt(5, cb)` arms timeout `1`,
`removeAt(5, cb)` deletes the entry but timeout `1` is still armed — the
pending timer is not cancelled, contradicting the claim as frozen. -/
theorem c6_counterexample :
    registerAt cReg 5 7 true 0 = some cArmed ∧
    (removeAt cArmed 5 7).timeListeners = [] ∧
    (removeAt cArmed 5 7).activeTimeouts = [⟨1, 5, 1, .fireK⟩] := by
  refine ⟨?_, rfl, rfl⟩
  simp [registerAt, recalcOne, lookupTL, clearTimeoutF, setTL, setTimeoutF, armFire,
    timeGetQ, timeGet, currentTimeCore, applyBounds, jsClampE, ERat.maxE, ERat.minE,
    ERat.leb, ERat.ltb, cReg, cArmed, Clock.init]

theorem c6_witness :
    ((removeAt cArmed 5 7).activeTimeouts = cArmed.activeTimeouts) ∧
    ((1, (⟨5, 7, 1, none, true⟩ : TimeListener)) ∉ (removeAt cArmed 5 7).timeListeners) ∧
    fireTimerBody (removeAt cArmed 5 7) 1 0 = some (removeAt cArmed 5 7, false) := by
  refine ⟨c6_removeAt_semantics.1 cArmed 5 7, ?_, ?_⟩
  · intro hmem
    have := (c6_removeAt_semantics.2.1 cArmed 5 7 _).mp hmem
    exact this.2 ⟨rfl, rfl⟩
  · exact c6_removeAt_semantics.2.2 (removeAt cArmed 5 7) 1 0 rfl

/-! ### Claim C4 -/

/-- The reachable degenerate looping state `minimum = maximum = 5`
(reached by `minimum = 5; maximum = 5; loop = true`). -/
def degen5 : Clock :=
  { Clock.init 0 with previousTime := 5, minimum := .fin 5, maximum := .fin 5, loop := true }

/-- C4: whenever the pre-validation read of `this.time` returns, setting
`minimum` above `maximum` (or to `+∞`) and setting `maximum` below
`minimum` (or to `-∞`) throw the validation error with the state
untouched.  But on the reachable degenerate state `degen5` the read
itself never returns (the folding loop subtracts a zero span forever), so
no validation error is ever raised — the code hangs before validating,
contradicting the claim, whose expectation is clearly the intent. -/
theorem c4_validation_and_divergence :
    (∀ (c : Clock) (m : ERat) (now : ℚ) (prevD : ERat), timeGet c now = some prevD →
      (ERat.ltb c.maximum m = true ∨ m = .posInf) →
      setMinimum c m now = some (.thrown "Cannot set minimum above maximum" c [])) ∧
    (∀ (c : Clock) (mx : ERat) (now : ℚ) (prevD : ERat), timeGet c now = some prevD →
      (ERat.ltb mx c.minimum = true ∨ mx = .negInf) →
      setMaximum c mx now = some (.thrown "Cannot set maximum below minimum" c [])) ∧
    setMinimum degen5 .posInf 0 = none := by
  refine ⟨?_, ?_, ?_⟩
  · intro c m now prevD htg hval
    unfold setMinimum
    simp only [htg]
    rw [if_pos hval]
  · intro c mx now prevD htg hval
    unfold setMaximum
    simp only [htg]
    rw [if_pos hval]
  · simp [setMinimum, timeGet, currentTimeCore, applyBounds, timeFold, degen5,
      Clock.init, ERat.ltb, ERat.leb] <;> norm_num

/-- A clock bounded above by `10` for the C4 witness. -/
def cW4 : Clock := { Clock.init 0 with maximum := .fin 10 }

theorem c4_witness :
    timeGet cW4 0 = some (.fin 0) ∧
    ERat.ltb cW4.maximum (.fin 20) = true ∧
    setMinimum cW4 (.fin 20) 0 =
      some (.thrown "Cannot set minimum above maximum" cW4 []) := by
  have htg : timeGet cW4 0 = some (.fin 0) := by
    simp [timeGet, currentTimeCore, applyBounds, jsClampE, ERat.maxE, ERat.minE,
      ERat.leb, ERat.ltb, cW4, Clock.init]
  exact ⟨htg, by decide,
    c4_validation_and_divergence.1 cW4 (.fin 20) 0 _ htg (Or.inl (by decide))⟩

end VClock
